import Mathlib

/-!
# Binary Convolution Theory: a shallow embedding

Shallow embedding of the core of the `BinaryConvolutionTheory` repository
(`src/core/binary_utils.py` and `src/bct/core/bct_invariants.py`), together
with proofs of the specification claims about it.

Python integers are modelled as `Int` at the public interfaces; internal
digit-level computations work on `Nat` (the guarded inputs are positive).
A Python function that can `raise` is modelled as returning `Except Err α`.
-/

/-- The exception classes relevant to this code base.  `ValueError` and
`RuntimeError` are the classes actually raised by the source; a typed
computation-limit error class (named by the design documents) is included
so that statements about *which* class a site raises can be expressed. -/
inductive Err where
  | ValueError
  | RuntimeError
  | ComputationLimitError
  deriving DecidableEq

deriving instance DecidableEq for Except

/-- The digit loop shared by `bin_seq` (`while n > 0: bits.append(n & 1);
n >>= 1`) and the final-carry loops of the sweep models: base-2 digits of
`n`, least significant first. -/
def bitsOf (n : Nat) : List Nat :=
  if n = 0 then [] else n % 2 :: bitsOf (n / 2)
  decreasing_by exact Nat.div_lt_self (Nat.pos_of_ne_zero (by assumption)) (by decide)

/-- Python's `int.bit_length()`: number of base-2 digits (0 for 0). -/
def pyBitLength (n : Nat) : Nat :=
  if n = 0 then 0 else pyBitLength (n / 2) + 1
  decreasing_by exact Nat.div_lt_self (Nat.pos_of_ne_zero (by assumption)) (by decide)

/-- `popcount` on the non-negative range: Python counts the `'1'` characters
of `bin(n)`, i.e. the number of 1-digits of the binary expansion. -/
def popcountN (n : Nat) : Nat :=
  (bitsOf n).count 1

/-- `np.max` over a list of naturals (the arrays this code takes a maximum
of are nonempty, where this agrees with NumPy). -/
def listMax (l : List Nat) : Nat :=
  l.foldr max 0

/-- Entry `k` of the full discrete convolution `np.convolve`:
`(x * y)_k = sum over i of x_i * y_(k-i)`. -/
def convEntry (xs ys : List Nat) (k : Nat) : Nat :=
  ∑ i in Finset.range (k + 1), xs.getD i 0 * ys.getD (k - i) 0

/-- `np.convolve xs ys`: the full convolution, of length
`xs.length + ys.length - 1`. -/
def convolve (xs ys : List Nat) : List Nat :=
  (List.range (xs.length + ys.length - 1)).map (convEntry xs ys)

/-- `bin_seq` from `binary_utils.py`: binary coefficient sequence, LSB
first; raises `ValueError` on `n <= 0`. -/
def bin_seq (n : Int) : Except Err (List Nat) :=
  if n ≤ 0 then .error .ValueError else .ok (bitsOf n.toNat)

/-- `popcount` from `binary_utils.py`: raises `ValueError` on `n < 0`. -/
def popcount (n : Int) : Except Err Nat :=
  if n < 0 then .error .ValueError else .ok (popcountN n.toNat)

/-- `bit_length` from `binary_utils.py`: raises `ValueError` on `n <= 0`,
else Python's `n.bit_length()`. -/
def bit_length (n : Int) : Except Err Nat :=
  if n ≤ 0 then .error .ValueError else .ok (pyBitLength n.toNat)

/-- `is_power_of_two` from `binary_utils.py`: `n > 0` and
`n & (n - 1) == 0` (bitwise arithmetic of non-negative Python ints is
`Nat` bitwise arithmetic). -/
def is_power_of_two (n : Int) : Bool :=
  if n ≤ 0 then false else n.toNat &&& (n.toNat - 1) == 0

/-- `is_mersenne` from `binary_utils.py`. -/
def is_mersenne (n : Int) : Bool × Int :=
  if n ≤ 0 then (false, -1)
  else
    let m := n + 1
    if is_power_of_two m then (true, (pyBitLength m.toNat - 1 : Nat))
    else (false, -1)

/-- `is_fermat` from `binary_utils.py`. -/
def is_fermat (n : Int) : Bool × Int :=
  if n ≤ 1 then (false, -1)
  else
    let m := n - 1
    if ¬ is_power_of_two m then (false, -1)
    else
      let exp := pyBitLength m.toNat - 1
      if exp = 0 then (false, -1)
      else if is_power_of_two (exp : Int) then (true, (pyBitLength exp - 1 : Nat))
      else if n = 3 then (true, 0)
      else (false, -1)

/-- `get_factorizations` from `binary_utils.py`: pairs `(a, n // a)` for
`a` in `range(start, int(n**0.5) + 1)` dividing `n`, kept when `a <= b`
and (`include_trivial` or `b < n`).  `int(n**0.5)` is modelled as the
integer square root.  `factor_list` is the loop on the guarded value. -/
def factor_list (nn : Nat) (include_trivial : Bool) : List (Nat × Nat) :=
  let start := if include_trivial then 1 else 2
  ((List.range' start (Nat.sqrt nn + 1 - start)).filter fun a =>
      decide (nn % a = 0) && decide (a ≤ nn / a) &&
        (include_trivial || decide (nn / a < nn))).map fun a => (a, nn / a)

def get_factorizations (n : Int) (include_trivial : Bool) :
    Except Err (List (Nat × Nat)) :=
  if n ≤ 0 then .error .ValueError
  else .ok (factor_list n.toNat include_trivial)

/-- `binary_convolution` from `bct_invariants.py`: guard, then
`np.convolve(bin_seq a, bin_seq b)`. -/
def binary_convolution (a b : Int) : Except Err (List Nat) :=
  if a ≤ 0 ∨ b ≤ 0 then .error .ValueError
  else do
    let bits_a ← bin_seq a
    let bits_b ← bin_seq b
    .ok (convolve bits_a bits_b)

/-- `H` from `bct_invariants.py`: maximum entry of the convolution. -/
def H (a b : Int) : Except Err Nat :=
  (binary_convolution a b).map listMax

/-- `C` from `bct_invariants.py`: `np.sum(np.maximum(conv - 1, 0))`;
on naturals `max (c - 1) 0` is truncated subtraction. -/
def C (a b : Int) : Except Err Nat :=
  (binary_convolution a b).map fun conv => (conv.map (· - 1)).sum

/-- One sequential LSB→MSB sweep of `L`: emit `(c + carry) % 2`, propagate
`(c + carry) / 2`; the trailing `while carry > 0` loop appends the digits
of the final carry. -/
def seqSweep : List Nat → Nat → List Nat
  | [], carry => bitsOf carry
  | c :: rest, carry => (c + carry) % 2 :: seqSweep rest ((c + carry) / 2)

theorem bitsOf_le_one (n : Nat) : ∀ x ∈ bitsOf n, x ≤ 1 := by
  induction n using Nat.strong_induction_on with
  | _ n ih =>
    intro x hx
    rw [bitsOf] at hx
    split at hx
    · simp at hx
    · rcases List.mem_cons.mp hx with h | h
      · omega
      · exact ih (n / 2)
          (Nat.div_lt_self (Nat.pos_of_ne_zero (by assumption)) (by decide)) x h

theorem seqSweep_le_one (l : List Nat) (carry : Nat) :
    ∀ x ∈ seqSweep l carry, x ≤ 1 := by
  induction l generalizing carry with
  | nil =>
    intro x hx
    simp only [seqSweep] at hx
    exact bitsOf_le_one carry x hx
  | cons c rest ih =>
    intro x hx
    simp only [seqSweep] at hx
    rcases List.mem_cons.mp hx with h | h
    · omega
    · exact ih _ x h

/-- The `while any(c > 1 for c in conv)` loop of `L`, carrying the sweep
counter.  It terminates because a single sweep leaves only binary digits. -/
def L_loop (conv : List Nat) (sweeps : Nat) : Nat :=
  if conv.any (· > 1) then L_loop (seqSweep conv 0) (sweeps + 1) else sweeps
  termination_by (if conv.any (· > 1) then 1 else 0)
  decreasing_by
    have h1 : (seqSweep conv 0).any (· > 1) = false := by
      rw [List.any_eq_false]
      intro x hx
      simpa using seqSweep_le_one conv 0 x hx
    have h2 : (conv.any fun x => decide (x > 1)) = true := by assumption
    rw [h1, h2]
    simp

/-- `L` from `bct_invariants.py`: run the sequential sweep loop, then
`return max(sweeps, 1) if sweeps == 0 else sweeps`. -/
def L (a b : Int) : Except Err Nat := do
  let conv ← binary_convolution a b
  let sweeps := L_loop conv 0
  pure (if sweeps = 0 then max sweeps 1 else sweeps)

/-- One parallel round of `L_parallel`: every position is updated from the
previous round's values, then the digits of the last position's carry are
appended.  (`conv[-1]` is only read on nonempty states, which is the case
on every call: the loop body runs only when some entry exceeds 1.) -/
def parStep (conv : List Nat) : List Nat :=
  ((List.range conv.length).map fun k =>
    conv.getD k 0 % 2 + if k = 0 then 0 else conv.getD (k - 1) 0 / 2)
    ++ bitsOf (conv.getLastD 0 / 2)

/-- The round loop of `L_parallel`, carrying the round counter: each
iteration increments the counter, performs a parallel step and then raises
`RuntimeError` (the source's safety cap) once the counter exceeds 1000. -/
def L_parallel_go (conv : List Nat) (rounds : Nat) : Except Err Nat :=
  if conv.any (· > 1) then
    if rounds + 1 > 1000 then .error .RuntimeError
    else L_parallel_go (parStep conv) (rounds + 1)
  else .ok rounds
  termination_by 1001 - rounds
  decreasing_by omega

/-- `L_parallel` from `bct_invariants.py`. -/
def L_parallel (a b : Int) : Except Err Nat := do
  let conv ← binary_convolution a b
  L_parallel_go conv 0

/-- The `for a, b in factorizations: if H(a, b) != 1: return False` loop of
`is_bct_perfect` (returns `True` when the list is exhausted, which also
covers the source's explicit empty-list convention). -/
def check_pairs : List (Nat × Nat) → Except Err Bool
  | [] => .ok true
  | (a, b) :: rest => do
    let h ← H (a : Int) (b : Int)
    if h ≠ 1 then .ok false else check_pairs rest

/-- `is_bct_perfect` from `bct_invariants.py`. -/
def is_bct_perfect (n : Int) : Except Err Bool :=
  if n ≤ 1 then .error .ValueError
  else do
    let facs ← get_factorizations n false
    check_pairs facs

/-- `sigma` from `bct_invariants.py`: trial division up to the integer
square root, adding divisor and cofactor (once when they coincide). -/
def sigma (n : Int) : Except Err Nat :=
  if n ≤ 0 then .error .ValueError
  else
    let nn := n.toNat
    .ok (((List.range' 1 (Nat.sqrt nn)).map fun i =>
      if nn % i = 0 then (if i ≠ nn / i then i + nn / i else i) else 0).sum)

/-! ## Basic facts about the digit sequence -/

theorem bitsOf_zero : bitsOf 0 = [] := by
  rw [bitsOf]; rfl

theorem bitsOf_of_pos {n : Nat} (h : n ≠ 0) :
    bitsOf n = n % 2 :: bitsOf (n / 2) := by
  rw [bitsOf, if_neg h]

theorem pyBitLength_zero : pyBitLength 0 = 0 := by
  rw [pyBitLength]; rfl

theorem pyBitLength_of_pos {n : Nat} (h : n ≠ 0) :
    pyBitLength n = pyBitLength (n / 2) + 1 := by
  rw [pyBitLength, if_neg h]

theorem bitsOf_length (n : Nat) : (bitsOf n).length = pyBitLength n := by
  induction n using Nat.strong_induction_on with
  | _ n ih =>
    by_cases h : n = 0
    · subst h; rw [bitsOf_zero, pyBitLength_zero]; rfl
    · rw [bitsOf_of_pos h, pyBitLength_of_pos h]
      simp [ih (n / 2) (Nat.div_lt_self (Nat.pos_of_ne_zero h) (by decide))]

theorem pyBitLength_pos {n : Nat} (h : 0 < n) : 0 < pyBitLength n := by
  rw [pyBitLength_of_pos (by omega)]; omega

theorem bitsOf_getD (n i : Nat) :
    (bitsOf n).getD i 0 = if n.testBit i then 1 else 0 := by
  induction n using Nat.strong_induction_on generalizing i with
  | _ n ih =>
    by_cases h : n = 0
    · subst h
      simp [bitsOf_zero, Nat.zero_testBit]
    · rw [bitsOf_of_pos h]
      cases i with
      | zero =>
        have h2 : n % 2 = 0 ∨ n % 2 = 1 := by omega
        rcases h2 with h2 | h2 <;> simp [Nat.testBit_zero, h2]
      | succ j =>
        have := ih (n / 2) (Nat.div_lt_self (Nat.pos_of_ne_zero h) (by decide)) j
        simpa [Nat.testBit_succ] using this

theorem count_one_eq_sum {l : List Nat} (h : ∀ x ∈ l, x ≤ 1) :
    l.count 1 = l.sum := by
  induction l with
  | nil => rfl
  | cons c rest ih =>
    have hc : c ≤ 1 := h c (by simp)
    have hr := ih fun x hx => h x (by simp [hx])
    interval_cases c <;> simp [List.count_cons, hr] <;> omega

theorem popcountN_eq_sum (n : Nat) : popcountN n = (bitsOf n).sum :=
  count_one_eq_sum (bitsOf_le_one n)

theorem bitsOf_getD_last {n : Nat} (h : 0 < n) :
    (bitsOf n).getD ((bitsOf n).length - 1) 0 = 1 := by
  induction n using Nat.strong_induction_on with
  | _ n ih =>
    rw [bitsOf_of_pos (by omega)]
    by_cases h2 : n / 2 = 0
    · have h3 : n = 1 := by omega
      subst h3
      simp [bitsOf_zero]
    · have h4 := ih (n / 2) (Nat.div_lt_self h (by decide)) (Nat.pos_of_ne_zero h2)
      have h5 : 0 < (bitsOf (n / 2)).length := by
        rw [bitsOf_length]
        exact pyBitLength_pos (Nat.pos_of_ne_zero h2)
      have h6 : (n % 2 :: bitsOf (n / 2)).length - 1 =
          ((bitsOf (n / 2)).length - 1) + 1 := by
        simp only [List.length_cons]
        omega
      rw [h6, List.getD_cons_succ]
      exact h4

/-! ## Summation helpers -/

theorem sum_getD_range (xs : List Nat) :
    ∑ i in Finset.range xs.length, xs.getD i 0 = xs.sum := by
  induction xs with
  | nil => simp
  | cons c rest ih =>
    rw [List.length_cons, Finset.sum_range_succ']
    simp only [List.getD_cons_succ, List.getD_cons_zero, List.sum_cons]
    omega

theorem sum_getD_range_le (xs : List Nat) (m : Nat) :
    ∑ i in Finset.range m, xs.getD i 0 ≤ xs.sum := by
  induction xs generalizing m with
  | nil => simp
  | cons c rest ih =>
    cases m with
    | zero => simp
    | succ m' =>
      rw [Finset.sum_range_succ']
      have := ih m'
      simp only [List.getD_cons_succ, List.getD_cons_zero, List.sum_cons]
      omega

theorem sum_getD_range_of_le {xs : List Nat} {m : Nat} (h : xs.length ≤ m) :
    ∑ i in Finset.range m, xs.getD i 0 = xs.sum := by
  rw [← sum_getD_range xs]
  symm
  apply Finset.sum_subset
  · intro x hx
    simp only [Finset.mem_range] at hx ⊢
    omega
  · intro x _ hx
    simp only [Finset.mem_range, not_lt] at hx
    exact List.getD_eq_default _ _ hx

theorem list_sum_map_range (f : Nat → Nat) (N : Nat) :
    ((List.range N).map f).sum = ∑ k in Finset.range N, f k := by
  induction N with
  | zero => simp
  | succ n ih => rw [List.range_succ]; simp [ih, Finset.sum_range_succ]

/-! ## Convolution lemmas -/

theorem getD_le {l : List Nat} {b : Nat} (h : ∀ x ∈ l, x ≤ b) (i : Nat) :
    l.getD i 0 ≤ b := by
  by_cases hi : i < l.length
  · have h2 : l.getD i 0 = l[i] := by
      rw [List.getD_eq_getElem?_getD, List.getElem?_eq_getElem hi]
      rfl
    rw [h2]
    exact h _ (List.getElem_mem hi)
  · rw [List.getD_eq_default _ _ (by omega)]
    omega

theorem convolve_length (xs ys : List Nat) :
    (convolve xs ys).length = xs.length + ys.length - 1 := by
  simp [convolve]

theorem convolve_getD {xs ys : List Nat} {k : Nat}
    (h : k < xs.length + ys.length - 1) :
    (convolve xs ys).getD k 0 = convEntry xs ys k := by
  rw [convolve, List.getD_eq_getElem?_getD, List.getElem?_map,
    List.getElem?_range h]
  rfl

theorem convEntry_comm (xs ys : List Nat) (k : Nat) :
    convEntry xs ys k = convEntry ys xs k := by
  simp only [convEntry]
  rw [← Finset.sum_range_reflect (fun i => xs.getD i 0 * ys.getD (k - i) 0) (k + 1)]
  apply Finset.sum_congr rfl
  intro j hj
  rw [Finset.mem_range] at hj
  have h1 : k + 1 - 1 - j = k - j := by omega
  have h2 : k - (k - j) = j := by omega
  rw [h1, h2, Nat.mul_comm]

theorem convEntry_le_left {ys : List Nat} (xs : List Nat)
    (hys : ∀ x ∈ ys, x ≤ 1) (k : Nat) :
    convEntry xs ys k ≤ xs.sum := by
  simp only [convEntry]
  calc ∑ i in Finset.range (k + 1), xs.getD i 0 * ys.getD (k - i) 0
      ≤ ∑ i in Finset.range (k + 1), xs.getD i 0 * 1 :=
        Finset.sum_le_sum fun i _ =>
          Nat.mul_le_mul_left _ (getD_le hys (k - i))
    _ = ∑ i in Finset.range (k + 1), xs.getD i 0 := by simp
    _ ≤ xs.sum := sum_getD_range_le xs (k + 1)

theorem listMax_cons (c : Nat) (l : List Nat) :
    listMax (c :: l) = max c (listMax l) := rfl

theorem le_listMax_of_mem {l : List Nat} {x : Nat} (h : x ∈ l) :
    x ≤ listMax l := by
  induction l with
  | nil => simp at h
  | cons c rest ih =>
    rw [listMax_cons]
    rcases List.mem_cons.mp h with h | h
    · subst h; exact le_max_left _ _
    · exact le_trans (ih h) (le_max_right _ _)

theorem listMax_le {l : List Nat} {b : Nat} (h : ∀ x ∈ l, x ≤ b) :
    listMax l ≤ b := by
  induction l with
  | nil => exact Nat.zero_le b
  | cons c rest ih =>
    rw [listMax_cons]
    exact max_le (h c (by simp)) (ih fun x hx => h x (by simp [hx]))

theorem convolve_sum {xs ys : List Nat} (hx : xs ≠ []) (hy : ys ≠ []) :
    (convolve xs ys).sum = xs.sum * ys.sum := by
  have hA : 1 ≤ xs.length := List.length_pos.mpr hx
  have hB : 1 ≤ ys.length := List.length_pos.mpr hy
  rw [convolve, list_sum_map_range]
  have step1 : ∀ k ∈ Finset.range (xs.length + ys.length - 1), convEntry xs ys k
      = ∑ i in Finset.range (xs.length + ys.length - 1),
          if i ≤ k then xs.getD i 0 * ys.getD (k - i) 0 else 0 := by
    intro k hk
    rw [Finset.mem_range] at hk
    simp only [convEntry]
    have e2 : ∑ i in Finset.range (k + 1), xs.getD i 0 * ys.getD (k - i) 0
        = ∑ i in Finset.range (k + 1),
            if i ≤ k then xs.getD i 0 * ys.getD (k - i) 0 else 0 :=
      Finset.sum_congr rfl fun i hi => by
        rw [Finset.mem_range] at hi
        rw [if_pos (by omega)]
    rw [e2]
    apply Finset.sum_subset (Finset.range_subset.mpr (by omega))
    intro i _ hi
    rw [Finset.mem_range] at hi
    rw [if_neg (by omega)]
  rw [Finset.sum_congr rfl step1, Finset.sum_comm]
  have step3 : ∀ i ∈ Finset.range (xs.length + ys.length - 1),
      (∑ k in Finset.range (xs.length + ys.length - 1),
        if i ≤ k then xs.getD i 0 * ys.getD (k - i) 0 else 0)
      = xs.getD i 0 * ∑ j in Finset.range (xs.length + ys.length - 1 - i),
          ys.getD j 0 := by
    intro i _
    rw [← Finset.sum_filter]
    have hfil : Finset.filter (fun k => i ≤ k)
        (Finset.range (xs.length + ys.length - 1))
        = Finset.Ico i (xs.length + ys.length - 1) := by
      ext k
      simp only [Finset.mem_filter, Finset.mem_range, Finset.mem_Ico]
      omega
    rw [hfil, Finset.sum_Ico_eq_sum_range, Finset.mul_sum]
    apply Finset.sum_congr rfl
    intro j _
    rw [Nat.add_sub_cancel_left]
  rw [Finset.sum_congr rfl step3]
  have step4 : ∑ i in Finset.range (xs.length + ys.length - 1),
      (xs.getD i 0 * ∑ j in Finset.range (xs.length + ys.length - 1 - i), ys.getD j 0)
      = ∑ i in Finset.range xs.length,
          (xs.getD i 0 * ∑ j in Finset.range (xs.length + ys.length - 1 - i), ys.getD j 0) := by
    symm
    apply Finset.sum_subset (Finset.range_subset.mpr (by omega))
    intro i _ hi
    rw [Finset.mem_range] at hi
    rw [List.getD_eq_default _ _ (by omega), Nat.zero_mul]
  rw [step4]
  have step5 : ∀ i ∈ Finset.range xs.length,
      (xs.getD i 0 * ∑ j in Finset.range (xs.length + ys.length - 1 - i), ys.getD j 0)
      = xs.getD i 0 * ys.sum := by
    intro i hi
    rw [Finset.mem_range] at hi
    rw [sum_getD_range_of_le (by omega)]
  rw [Finset.sum_congr rfl step5, ← Finset.sum_mul, sum_getD_range]

/-! ## The guarded pipeline on positive inputs -/

theorem bitsOf_ne_nil {n : Nat} (h : 0 < n) : bitsOf n ≠ [] := by
  rw [bitsOf_of_pos (by omega)]
  simp

theorem toNat_pos {a : Int} (ha : 0 < a) : 0 < a.toNat := by omega

theorem binary_convolution_pos {a b : Int} (ha : 0 < a) (hb : 0 < b) :
    binary_convolution a b
      = .ok (convolve (bitsOf a.toNat) (bitsOf b.toNat)) := by
  rw [binary_convolution, if_neg (by omega)]
  rw [bin_seq, if_neg (by omega), bin_seq, if_neg (by omega)]
  rfl

theorem H_pos {a b : Int} (ha : 0 < a) (hb : 0 < b) :
    H a b = .ok (listMax (convolve (bitsOf a.toNat) (bitsOf b.toNat))) := by
  rw [H, binary_convolution_pos ha hb]
  rfl

theorem C_pos {a b : Int} (ha : 0 < a) (hb : 0 < b) :
    C a b = .ok (((convolve (bitsOf a.toNat) (bitsOf b.toNat)).map (· - 1)).sum) := by
  rw [C, binary_convolution_pos ha hb]
  rfl

/-! ## Bounds on the convolution height -/

theorem listMax_convolve_ge_one {x y : Nat} (hx : 0 < x) (hy : 0 < y) :
    1 ≤ listMax (convolve (bitsOf x) (bitsOf y)) := by
  have hxA : 0 < (bitsOf x).length := by
    rw [bitsOf_length]; exact pyBitLength_pos hx
  have hyB : 0 < (bitsOf y).length := by
    rw [bitsOf_length]; exact pyBitLength_pos hy
  have hk : (bitsOf x).length - 1 + ((bitsOf y).length - 1)
      < (bitsOf x).length + (bitsOf y).length - 1 := by omega
  have hmem :
      convEntry (bitsOf x) (bitsOf y)
          ((bitsOf x).length - 1 + ((bitsOf y).length - 1)) ∈
        convolve (bitsOf x) (bitsOf y) := by
    rw [convolve]
    exact List.mem_map.mpr ⟨_, List.mem_range.mpr hk, rfl⟩
  refine le_trans ?_ (le_listMax_of_mem hmem)
  have h1 := Finset.single_le_sum
    (f := fun i => (bitsOf x).getD i 0 *
      (bitsOf y).getD ((bitsOf x).length - 1 + ((bitsOf y).length - 1) - i) 0)
    (s := Finset.range ((bitsOf x).length - 1 + ((bitsOf y).length - 1) + 1))
    (fun i _ => Nat.zero_le _)
    (a := (bitsOf x).length - 1) (Finset.mem_range.mpr (by omega))
  have h2 : (bitsOf x).length - 1 + ((bitsOf y).length - 1) - ((bitsOf x).length - 1)
      = (bitsOf y).length - 1 := by omega
  simp only [] at h1
  rw [h2, bitsOf_getD_last hx, bitsOf_getD_last hy] at h1
  simpa [convEntry] using h1

theorem listMax_convolve_le {x y : Nat} :
    listMax (convolve (bitsOf x) (bitsOf y)) ≤ min (popcountN x) (popcountN y) := by
  apply listMax_le
  intro v hv
  rw [convolve] at hv
  obtain ⟨k, _, rfl⟩ := List.mem_map.mp hv
  rw [le_min_iff]
  constructor
  · calc convEntry (bitsOf x) (bitsOf y) k
        ≤ (bitsOf x).sum := convEntry_le_left _ (bitsOf_le_one y) k
      _ = popcountN x := (popcountN_eq_sum x).symm
  · rw [convEntry_comm]
    calc convEntry (bitsOf y) (bitsOf x) k
        ≤ (bitsOf y).sum := convEntry_le_left _ (bitsOf_le_one x) k
      _ = popcountN y := (popcountN_eq_sum y).symm

/-! ## Evaluation of the sequential sweep loop -/

theorem seqSweep_normalized (l : List Nat) (carry : Nat) :
    ((seqSweep l carry).any (· > 1)) = false := by
  rw [List.any_eq_false]
  intro x hx
  simpa using seqSweep_le_one l carry x hx

theorem L_loop_eq (conv : List Nat) (sweeps : Nat) :
    L_loop conv sweeps
      = if conv.any (· > 1) then L_loop (seqSweep conv 0) (sweeps + 1)
        else sweeps := by
  rw [L_loop]

theorem L_loop_zero_eval (conv : List Nat) :
    L_loop conv 0 = if conv.any (· > 1) then 1 else 0 := by
  by_cases h : conv.any (· > 1)
  · rw [L_loop_eq, if_pos h, if_pos h, L_loop_eq, if_neg (by
      rw [seqSweep_normalized]; exact Bool.false_ne_true)]
  · rw [L_loop_eq, if_neg h, if_neg h]

theorem L_eq {a b : Int} (ha : 0 < a) (hb : 0 < b) :
    L a b = .ok
      (if L_loop (convolve (bitsOf a.toNat) (bitsOf b.toNat)) 0 = 0
       then max (L_loop (convolve (bitsOf a.toNat) (bitsOf b.toNat)) 0) 1
       else L_loop (convolve (bitsOf a.toNat) (bitsOf b.toNat)) 0) := by
  rw [L, binary_convolution_pos ha hb]
  rfl

theorem L_pos {a b : Int} (ha : 0 < a) (hb : 0 < b) : L a b = .ok 1 := by
  rw [L_eq ha hb, L_loop_zero_eval]
  by_cases hany : (convolve (bitsOf a.toNat) (bitsOf b.toNat)).any (· > 1) = true
  · simp [hany]
  · simp [hany]

theorem any_gt_one_of_listMax {l : List Nat} (h : 1 < listMax l) :
    l.any (· > 1) = true := by
  by_contra hc
  have h2 : l.any (· > 1) = false := by
    cases h3 : l.any (· > 1)
    · rfl
    · exact absurd h3 hc
  rw [List.any_eq_false] at h2
  have h4 : listMax l ≤ 1 := listMax_le fun x hx => by
    have := h2 x hx
    simpa using this
  omega

/-! ## Square root evaluation helper -/

theorem sqrt_eval {m n : Nat} (h1 : m * m ≤ n) (h2 : n < (m + 1) * (m + 1)) :
    Nat.sqrt n = m := by
  have ha := Nat.le_sqrt.mpr h1
  have hb := Nat.sqrt_lt.mpr h2
  omega

/-! ## Claims C1, C2, C3, C9 -/

/-- C1: for positive `a`, `b`, `binary_convolution a b` returns a sequence
of length `bitLength a + bitLength b - 1` whose entry `k` is
`sum over i + j = k of bit_i(a) * bit_j(b)`, and whose total sum is
`popcount a * popcount b`. -/
theorem C1_binary_convolution_spec (a b : Int) (ha : 0 < a) (hb : 0 < b) :
    ∃ c : List Nat, binary_convolution a b = .ok c ∧
      c.length = pyBitLength a.toNat + pyBitLength b.toNat - 1 ∧
      (∀ k < c.length, c.getD k 0
        = ∑ i in Finset.range (k + 1),
            (if a.toNat.testBit i then 1 else 0) *
              (if b.toNat.testBit (k - i) then 1 else 0)) ∧
      c.sum = popcountN a.toNat * popcountN b.toNat := by
  refine ⟨_, binary_convolution_pos ha hb, ?_, ?_, ?_⟩
  · rw [convolve_length, bitsOf_length, bitsOf_length]
  · intro k hk
    rw [convolve_length] at hk
    rw [convolve_getD hk]
    simp only [convEntry]
    exact Finset.sum_congr rfl fun i _ => by rw [bitsOf_getD, bitsOf_getD]
  · rw [popcountN_eq_sum, popcountN_eq_sum]
    exact convolve_sum (bitsOf_ne_nil (toNat_pos ha)) (bitsOf_ne_nil (toNat_pos hb))

/-- C2: for positive `a`, `b` the convolution height satisfies
`1 <= H(a,b) <= min (popcount a) (popcount b)`. -/
theorem C2_H_bounds (a b : Int) (ha : 0 < a) (hb : 0 < b) :
    ∃ h : Nat, H a b = .ok h ∧ 1 ≤ h ∧
      h ≤ min (popcountN a.toNat) (popcountN b.toNat) :=
  ⟨_, H_pos ha hb, listMax_convolve_ge_one (toNat_pos ha) (toNat_pos hb),
    listMax_convolve_le⟩

/-- C3: for positive `a`, `b` with `H(a,b) > 1`, a single sequential sweep
normalizes the convolution to entries in `{0, 1}`, the sweep loop performs
exactly one pass, and `L(a,b)` returns 1. -/
theorem C3_single_sweep_normalization (a b : Int) (ha : 0 < a) (hb : 0 < b)
    (h : Nat) (hH : H a b = .ok h) (hgt : 1 < h) :
    ((seqSweep (convolve (bitsOf a.toNat) (bitsOf b.toNat)) 0).all (· ≤ 1)) = true ∧
    L_loop (convolve (bitsOf a.toNat) (bitsOf b.toNat)) 0 = 1 ∧
    L a b = .ok 1 := by
  have hHv : listMax (convolve (bitsOf a.toNat) (bitsOf b.toNat)) = h :=
    Except.ok.inj ((H_pos ha hb).symm.trans hH)
  have hany : (convolve (bitsOf a.toNat) (bitsOf b.toNat)).any (· > 1) = true :=
    any_gt_one_of_listMax (hHv ▸ hgt)
  refine ⟨?_, ?_, L_pos ha hb⟩
  · rw [List.all_eq_true]
    intro x hx
    simpa using seqSweep_le_one _ _ x hx
  · rw [L_loop_zero_eval, if_pos hany]

/-- C9: for all positive `a`, `b`, `L(a,b)` returns exactly 1 — the final
`max(sweeps, 1)` clamps the zero-sweep case up to 1, so `L` never
returns 0. -/
theorem C9_L_returns_one (a b : Int) (ha : 0 < a) (hb : 0 < b) :
    L a b = .ok 1 :=
  L_pos ha hb


/-! ## Factorization enumeration -/

theorem mem_factor_list {n : Nat} (hn : 2 ≤ n) {p : Nat × Nat} :
    p ∈ factor_list n false ↔
      2 ≤ p.1 ∧ p.1 ≤ p.2 ∧ p.2 < n ∧ p.1 * p.2 = n := by
  simp only [factor_list, Bool.false_eq_true, if_false]
  constructor
  · intro hp
    obtain ⟨a, ha, hpa⟩ := List.mem_map.mp hp
    rw [List.mem_filter] at ha
    obtain ⟨har, hcond⟩ := ha
    rw [List.mem_range'_1] at har
    simp only [Bool.and_eq_true, decide_eq_true_eq, Bool.or_eq_true,
      Bool.false_eq_true, false_or] at hcond
    obtain ⟨⟨hdvd, hle⟩, hblt⟩ := hcond
    have heq : a * (n / a) = n := Nat.mul_div_cancel' (Nat.dvd_of_mod_eq_zero hdvd)
    rw [← hpa]
    exact ⟨har.1, hle, hblt, heq⟩
  · rintro ⟨h2, hle, hlt, heq⟩
    obtain ⟨a, b⟩ := p
    simp only at h2 hle hlt heq
    have hdiv : n / a = b := by
      rw [← heq]
      exact Nat.mul_div_cancel_left b (by omega)
    have hmod : n % a = 0 := by
      rw [← heq]
      exact Nat.mul_mod_right a b
    apply List.mem_map.mpr
    refine ⟨a, ?_, by rw [hdiv]⟩
    rw [List.mem_filter, List.mem_range'_1]
    refine ⟨⟨h2, ?_⟩, ?_⟩
    · have haa : a * a ≤ n := by
        calc a * a ≤ a * b := Nat.mul_le_mul_left a hle
          _ = n := heq
      have hsq : a ≤ Nat.sqrt n := Nat.le_sqrt.mpr haa
      omega
    · simp only [Bool.and_eq_true, decide_eq_true_eq, Bool.or_eq_true,
        Bool.false_eq_true, false_or]
      exact ⟨⟨hmod, by rw [hdiv]; exact hle⟩, by rw [hdiv]; exact hlt⟩

theorem bind_ok_eq {α β : Type} (v : α) (f : α → Except Err β) :
    (do let x ← Except.ok v; f x) = f v := rfl

theorem check_pairs_spec (l : List (Nat × Nat))
    (hpos : ∀ p ∈ l, 0 < p.1 ∧ 0 < p.2) :
    ∃ r : Bool, check_pairs l = .ok r ∧
      (r = true ↔ ∀ p ∈ l, H (p.1 : Int) (p.2 : Int) = .ok 1) := by
  induction l with
  | nil => exact ⟨true, rfl, by simp⟩
  | cons q rest ih =>
    obtain ⟨qa, qb⟩ := q
    have hqa : (0 : Int) < (qa : Int) := by
      have := (hpos (qa, qb) (by simp)).1
      exact_mod_cast this
    have hqb : (0 : Int) < (qb : Int) := by
      have := (hpos (qa, qb) (by simp)).2
      exact_mod_cast this
    have hH := H_pos hqa hqb
    obtain ⟨r, hr, hiff⟩ := ih fun p hp => hpos p (by simp [hp])
    by_cases hone :
        listMax (convolve (bitsOf (qa : Int).toNat) (bitsOf (qb : Int).toNat)) = 1
    · refine ⟨r, ?_, ?_⟩
      · rw [check_pairs, hH, bind_ok_eq, if_neg (not_not_intro hone)]
        exact hr
      · rw [hiff]
        constructor
        · intro hall p hp
          rcases List.mem_cons.mp hp with hhd | htl
          · subst hhd
            rw [hH, hone]
          · exact hall p htl
        · intro hall p hp
          exact hall p (by simp [hp])
    · refine ⟨false, ?_, ?_⟩
      · rw [check_pairs, hH, bind_ok_eq, if_pos hone]
      · simp only [Bool.false_eq_true, false_iff]
        intro hall
        have := hall (qa, qb) (by simp)
        rw [hH] at this
        exact hone (Except.ok.inj this)

/-! ## Claim C4 -/

theorem H_cast_eval (a b : Nat) (va vb : List Nat) (ha : 0 < a) (hb : 0 < b)
    (hva : bitsOf a = va) (hvb : bitsOf b = vb) :
    H (a : Int) (b : Int) = .ok (listMax (convolve va vb)) := by
  have h1 := H_pos (a := (a : Int)) (b := (b : Int))
    (by exact_mod_cast ha) (by exact_mod_cast hb)
  rw [Int.toNat_natCast, Int.toNat_natCast] at h1
  rw [h1, hva, hvb]

theorem is_bct_perfect_eval {n : Int} (hn : 1 < n) :
    is_bct_perfect n = check_pairs (factor_list n.toNat false) := by
  rw [is_bct_perfect, if_neg (by omega), get_factorizations, if_neg (by omega),
    bind_ok_eq]

/-- C4: for `n > 1`, `is_bct_perfect n` returns true exactly when every
non-trivial factorization `n = a * b` with `1 < a <= b < n` has
`H(a,b) = 1` (vacuously true for primes), and concretely
`is_bct_perfect` is true at 15, false at 21, true at 51. -/
theorem C4_is_bct_perfect_spec (n : Int) (hn : 1 < n) :
    (is_bct_perfect n = .ok true ↔
      ∀ a b : Nat, 1 < a → a ≤ b → b < n.toNat → a * b = n.toNat →
        H (a : Int) (b : Int) = .ok 1) ∧
    is_bct_perfect 15 = .ok true ∧
    is_bct_perfect 21 = .ok false ∧
    is_bct_perfect 51 = .ok true := by
  have hn2 : 2 ≤ n.toNat := by omega
  have hpos : ∀ p ∈ factor_list n.toNat false, 0 < p.1 ∧ 0 < p.2 := by
    intro p hp
    obtain ⟨g1, g2, _, _⟩ := (mem_factor_list hn2).mp hp
    omega
  obtain ⟨r, hr, hiff⟩ := check_pairs_spec _ hpos
  refine ⟨?_, ?_, ?_, ?_⟩
  · rw [is_bct_perfect_eval hn, hr]
    constructor
    · intro hok a b h1 h2 h3 h4
      have hrt : r = true := Except.ok.inj hok
      exact (hiff.mp hrt) (a, b) ((mem_factor_list hn2).mpr ⟨h1, h2, h3, h4⟩)
    · intro hall
      have hrt : r = true := hiff.mpr fun p hp => by
        obtain ⟨g1, g2, g3, g4⟩ := (mem_factor_list hn2).mp hp
        exact hall p.1 p.2 g1 g2 g3 g4
      rw [hrt]
  · have hs : Nat.sqrt 15 = 3 := sqrt_eval (by norm_num) (by norm_num)
    have hf : factor_list 15 false = [(3, 5)] := by
      simp only [factor_list, hs]
      decide
    have hH35 : H ((3 : Nat) : Int) ((5 : Nat) : Int) = .ok 1 :=
      H_cast_eval 3 5 [1, 1] [1, 0, 1] (by norm_num) (by norm_num)
        (by simp [bitsOf]) (by simp [bitsOf]) |>.trans (by decide)
    rw [is_bct_perfect_eval (by norm_num), show ((15 : Int).toNat) = 15 from rfl,
      hf, check_pairs, hH35, bind_ok_eq, if_neg (by norm_num)]
    rfl
  · have hs : Nat.sqrt 21 = 4 := sqrt_eval (by norm_num) (by norm_num)
    have hf : factor_list 21 false = [(3, 7)] := by
      simp only [factor_list, hs]
      decide
    have hH37 : H ((3 : Nat) : Int) ((7 : Nat) : Int) = .ok 2 :=
      H_cast_eval 3 7 [1, 1] [1, 1, 1] (by norm_num) (by norm_num)
        (by simp [bitsOf]) (by simp [bitsOf]) |>.trans (by decide)
    rw [is_bct_perfect_eval (by norm_num), show ((21 : Int).toNat) = 21 from rfl,
      hf, check_pairs, hH37, bind_ok_eq, if_pos (by norm_num)]
  · have hs : Nat.sqrt 51 = 7 := sqrt_eval (by norm_num) (by norm_num)
    have hf : factor_list 51 false = [(3, 17)] := by
      simp only [factor_list, hs]
      decide
    have hH317 : H ((3 : Nat) : Int) ((17 : Nat) : Int) = .ok 1 :=
      H_cast_eval 3 17 [1, 1] [1, 0, 0, 0, 1] (by norm_num) (by norm_num)
        (by simp [bitsOf]) (by simp [bitsOf]) |>.trans (by decide)
    rw [is_bct_perfect_eval (by norm_num), show ((51 : Int).toNat) = 51 from rfl,
      hf, check_pairs, hH317, bind_ok_eq, if_neg (by norm_num)]
    rfl

/-! ## Claim C5: Mersenne numbers -/

theorem bitsOf_mersenne (k : Nat) : bitsOf (2 ^ k - 1) = List.replicate k 1 := by
  induction k with
  | zero => simpa using bitsOf_zero
  | succ k ih =>
    have hpow : 1 ≤ 2 ^ k := Nat.one_le_two_pow
    have h2 : 2 ^ (k + 1) = 2 * 2 ^ k := by ring
    rw [bitsOf_of_pos (by omega)]
    have hm : (2 ^ (k + 1) - 1) % 2 = 1 := by omega
    have hd : (2 ^ (k + 1) - 1) / 2 = 2 ^ k - 1 := by omega
    rw [hm, hd, ih, List.replicate_succ]

theorem getD_replicate (k i : Nat) :
    (List.replicate k (1 : Nat)).getD i 0 = if i < k then 1 else 0 := by
  by_cases h : i < k
  · simp [List.getD_eq_getElem?_getD, List.getElem?_replicate, h]
  · simp [List.getD_eq_getElem?_getD, List.getElem?_replicate, h]

theorem convEntry_replicate (k j : Nat) (hj : j < 2 * k - 1) :
    convEntry (List.replicate k 1) (List.replicate k 1) j
      = min (j + 1) (2 * k - 1 - j) := by
  simp only [convEntry, getD_replicate]
  have hterm : ∀ i, (if i < k then (1 : Nat) else 0) * (if j - i < k then 1 else 0)
      = if i < k ∧ j - i < k then 1 else 0 := by
    intro i
    by_cases h1 : i < k
    · by_cases h2 : j - i < k
      · simp [h1, h2]
      · simp [h1, h2]
    · simp [h1]
  rw [Finset.sum_congr rfl fun i _ => hterm i, Finset.sum_boole]
  have hfil : Finset.filter (fun i => i < k ∧ j - i < k) (Finset.range (j + 1))
      = Finset.Ico (j + 1 - k) (min (j + 1) k) := by
    ext i
    simp only [Finset.mem_filter, Finset.mem_range, Finset.mem_Ico, lt_min_iff]
    omega
  rw [hfil, Nat.card_Ico]
  simp only [Nat.cast_id]
  omega

theorem convolve_mersenne (k : Nat) (hk : 1 ≤ k) :
    convolve (List.replicate k 1) (List.replicate k 1)
      = (List.range (2 * k - 1)).map fun j => min (j + 1) (2 * k - 1 - j) := by
  rw [convolve, List.length_replicate]
  have hlen : k + k - 1 = 2 * k - 1 := by omega
  rw [hlen]
  apply List.map_congr_left
  intro j hj
  rw [List.mem_range] at hj
  exact convEntry_replicate k j hj

theorem sum_ge_length {l : List Nat} (h : ∀ x ∈ l, 1 ≤ x) :
    l.length ≤ l.sum := by
  induction l with
  | nil => simp
  | cons c rest ih =>
    have hc := h c (by simp)
    have hr := ih fun x hx => h x (by simp [hx])
    simp only [List.length_cons, List.sum_cons]
    omega

theorem map_sub_one_sum {l : List Nat} (h : ∀ x ∈ l, 1 ≤ x) :
    (l.map (· - 1)).sum = l.sum - l.length := by
  induction l with
  | nil => rfl
  | cons c rest ih =>
    have hc := h c (by simp)
    have hr := ih fun x hx => h x (by simp [hx])
    have hlen := sum_ge_length (l := rest) fun x hx => h x (by simp [hx])
    simp only [List.map_cons, List.sum_cons, List.length_cons]
    omega

/-- C5: for `k >= 2` and `M = 2^k - 1`, the self-convolution of `M` is the
symmetric triangle `[1, 2, ..., k, ..., 2, 1]`, `H(M,M) = k`, and
`C(M,M) = (k-1)^2`. -/
theorem C5_mersenne_law (k : Nat) (hk : 2 ≤ k) :
    binary_convolution ((2 : Int) ^ k - 1) ((2 : Int) ^ k - 1)
      = .ok ((List.range (2 * k - 1)).map fun j => min (j + 1) (2 * k - 1 - j)) ∧
    H ((2 : Int) ^ k - 1) ((2 : Int) ^ k - 1) = .ok k ∧
    C ((2 : Int) ^ k - 1) ((2 : Int) ^ k - 1) = .ok ((k - 1) ^ 2) := by
  have h2k : (1 : Nat) ≤ 2 ^ k := Nat.one_le_two_pow
  have h4 : (4 : Nat) ≤ 2 ^ k := by
    calc (4 : Nat) = 2 ^ 2 := rfl
      _ ≤ 2 ^ k := Nat.pow_le_pow_right (by norm_num) hk
  have h4i : (4 : Int) ≤ (2 : Int) ^ k := by exact_mod_cast h4
  have hMpos : (0 : Int) < (2 : Int) ^ k - 1 := by omega
  have htoNat : ((2 : Int) ^ k - 1).toNat = 2 ^ k - 1 := by
    rw [show (2 : Int) ^ k - 1 = ((2 ^ k - 1 : Nat) : Int) by
      rw [Nat.cast_sub h2k]; push_cast; ring]
    exact Int.toNat_natCast _
  have hbits : bitsOf ((2 : Int) ^ k - 1).toNat = List.replicate k 1 := by
    rw [htoNat, bitsOf_mersenne]
  have hrep_ne : (List.replicate k (1 : Nat)) ≠ [] := by
    intro hcon
    have := congrArg List.length hcon
    simp at this
    omega
  have hconv := binary_convolution_pos hMpos hMpos
  rw [hbits, convolve_mersenne k (by omega)] at hconv
  have htri_ge : ∀ x ∈ (List.range (2 * k - 1)).map
      fun j => min (j + 1) (2 * k - 1 - j), 1 ≤ x := by
    intro x hx
    obtain ⟨j, hj, rfl⟩ := List.mem_map.mp hx
    rw [List.mem_range] at hj
    omega
  have hsum : ((List.range (2 * k - 1)).map
      fun j => min (j + 1) (2 * k - 1 - j)).sum = k * k := by
    rw [← convolve_mersenne k (by omega), convolve_sum hrep_ne hrep_ne]
    simp [List.sum_replicate]
  refine ⟨hconv, ?_, ?_⟩
  · rw [H_pos hMpos hMpos, hbits, convolve_mersenne k (by omega)]
    congr 1
    apply le_antisymm
    · apply listMax_le
      intro x hx
      obtain ⟨j, hj, rfl⟩ := List.mem_map.mp hx
      rw [List.mem_range] at hj
      omega
    · apply le_listMax_of_mem
      apply List.mem_map.mpr
      refine ⟨k - 1, List.mem_range.mpr (by omega), ?_⟩
      omega
  · rw [C_pos hMpos hMpos, hbits, convolve_mersenne k (by omega)]
    congr 1
    rw [map_sub_one_sum htri_ge, hsum, List.length_map, List.length_range]
    obtain ⟨m, rfl⟩ : ∃ m, k = m + 2 := ⟨k - 2, by omega⟩
    have e1 : (m + 2) * (m + 2) = m * m + 4 * m + 4 := by ring
    have e2 : (m + 2 - 1) ^ 2 = m * m + 2 * m + 1 := by
      have : m + 2 - 1 = m + 1 := by omega
      rw [this]; ring
    rw [e1, e2]
    generalize m * m = q
    omega

/-! ## Claims C6, C7, C10 -/

theorem is_bct_perfect_ok {n : Int} (hn : 1 < n) :
    ∃ r, is_bct_perfect n = .ok r := by
  have hn2 : 2 ≤ n.toNat := by omega
  have hpos : ∀ p ∈ factor_list n.toNat false, 0 < p.1 ∧ 0 < p.2 := by
    intro p hp
    obtain ⟨g1, g2, _, _⟩ := (mem_factor_list hn2).mp hp
    omega
  obtain ⟨r, hr, _⟩ := check_pairs_spec _ hpos
  exact ⟨r, (is_bct_perfect_eval hn).trans hr⟩

/-- C6 counterexample: at a loop state whose round counter has reached the
cap, the parallel simulation raises `RuntimeError`, which is not the typed
`ComputationLimitError` the claim names; and the sequential `L` has no cap
at all (see its definition and `C6_iteration_caps`). -/
theorem C6_cap_error_class :
    L_parallel_go [2] 1000 = .error .RuntimeError ∧
      Err.RuntimeError ≠ Err.ComputationLimitError := by
  constructor
  · rw [L_parallel_go]
    simp
  · decide

/-- C6 amended: the sequential `L` has no iteration cap and returns a value
on every positive input (a single sweep always suffices, so no guard is
needed), while `L_parallel` is capped: once the round counter would exceed
1000 on a still-unnormalized state, it raises the generic `RuntimeError`
(not a `ComputationLimitError`, which appears nowhere in the code). -/
theorem C6_iteration_caps (a b : Int) (conv : List Nat) (rounds : Nat) :
    (0 < a → 0 < b → ∃ v, L a b = .ok v) ∧
    (conv.any (· > 1) = true → 1000 ≤ rounds →
      L_parallel_go conv rounds = .error .RuntimeError) := by
  constructor
  · intro ha hb
    exact ⟨1, L_pos ha hb⟩
  · intro hany hr
    rw [L_parallel_go, if_pos hany, if_pos (by omega)]

theorem C6_iteration_caps_witness :
    (∃ v, L 3 5 = .ok v) ∧
      L_parallel_go [2] 1000 = .error .RuntimeError :=
  ⟨(C6_iteration_caps 3 5 [2] 1000).1 (by norm_num) (by norm_num),
   (C6_iteration_caps 3 5 [2] 1000).2 (by decide) (by norm_num)⟩

/-- C7: domain violations raise `ValueError` (the code's typed domain
error), and exactly on the documented domains: `binary_convolution` iff
`a <= 0` or `b <= 0`, `is_bct_perfect` iff `n <= 1`, `sigma` iff `n <= 0`;
on all other inputs each function returns a value. -/
theorem C7_domain_errors (a b m : Int) :
    ((∃ e, binary_convolution a b = .error e) ↔ a ≤ 0 ∨ b ≤ 0) ∧
    ((a ≤ 0 ∨ b ≤ 0) → binary_convolution a b = .error .ValueError) ∧
    ((∃ e, is_bct_perfect m = .error e) ↔ m ≤ 1) ∧
    (m ≤ 1 → is_bct_perfect m = .error .ValueError) ∧
    ((∃ e, sigma m = .error e) ↔ m ≤ 0) ∧
    (m ≤ 0 → sigma m = .error .ValueError) := by
  refine ⟨?_, ?_, ?_, ?_, ?_, ?_⟩
  · constructor
    · rintro ⟨e, he⟩
      by_contra hc
      push_neg at hc
      rw [binary_convolution_pos (by omega) (by omega)] at he
      exact Except.noConfusion he
    · intro h
      exact ⟨.ValueError, by rw [binary_convolution, if_pos h]⟩
  · intro h
    rw [binary_convolution, if_pos h]
  · constructor
    · rintro ⟨e, he⟩
      by_contra hc
      push_neg at hc
      obtain ⟨r, hr⟩ := is_bct_perfect_ok hc
      rw [hr] at he
      exact Except.noConfusion he
    · intro h
      exact ⟨.ValueError, by rw [is_bct_perfect, if_pos h]⟩
  · intro h
    rw [is_bct_perfect, if_pos h]
  · constructor
    · rintro ⟨e, he⟩
      by_contra hc
      push_neg at hc
      rw [sigma, if_neg (by omega)] at he
      exact Except.noConfusion he
    · intro h
      exact ⟨.ValueError, by rw [sigma, if_pos h]⟩
  · intro h
    rw [sigma, if_pos h]

/-- C10: `is_mersenne` and `is_fermat` are total plain functions in the
embedding (they raise nothing); out-of-domain inputs get the sentinel
`(False, -1)`: `is_mersenne` for `n <= 0` and `is_fermat` for `n <= 1`. -/
theorem C10_sentinels (n : Int) :
    (n ≤ 0 → is_mersenne n = (false, -1)) ∧
    (n ≤ 1 → is_fermat n = (false, -1)) := by
  constructor
  · intro h
    rw [is_mersenne, if_pos h]
  · intro h
    rw [is_fermat, if_pos h]

theorem C10_sentinels_witness :
    is_mersenne 0 = (false, -1) ∧ is_fermat 0 = (false, -1) :=
  ⟨(C10_sentinels 0).1 (by norm_num), (C10_sentinels 0).2 (by norm_num)⟩

/-! ## Claim C8: Fermat-number recognition -/

theorem pyBitLength_bounds {n : Nat} (h : 0 < n) :
    2 ^ (pyBitLength n - 1) ≤ n ∧ n < 2 ^ pyBitLength n := by
  induction n using Nat.strong_induction_on with
  | _ n ih =>
    by_cases h2 : n / 2 = 0
    · have h1 : n = 1 := by omega
      subst h1
      rw [pyBitLength_of_pos (by omega)]
      norm_num [pyBitLength_zero]
    · have hd := ih (n / 2) (Nat.div_lt_self h (by decide)) (Nat.pos_of_ne_zero h2)
      rw [pyBitLength_of_pos (by omega)]
      have hp := pyBitLength_pos (Nat.pos_of_ne_zero h2)
      have hA : 2 ^ pyBitLength (n / 2)
          = 2 * 2 ^ (pyBitLength (n / 2) - 1) := by
        conv_lhs => rw [show pyBitLength (n / 2) = (pyBitLength (n / 2) - 1) + 1 by omega]
        rw [pow_succ]
        ring
      have hB : 2 ^ (pyBitLength (n / 2) + 1) = 2 * 2 ^ pyBitLength (n / 2) := by
        rw [pow_succ]
        ring
      rw [Nat.add_sub_cancel]
      omega

theorem testBit_top {p x : Nat} (h1 : 2 ^ p ≤ x) (h2 : x < 2 ^ (p + 1)) :
    x.testBit p = true := by
  rw [Nat.testBit_to_div_mod]
  have hpow : 0 < 2 ^ p := Nat.two_pow_pos p
  have hd1 : 1 ≤ x / 2 ^ p := (Nat.le_div_iff_mul_le hpow).mpr (by omega)
  have hd2 : x / 2 ^ p < 2 := Nat.div_lt_of_lt_mul (by rw [← pow_succ]; exact h2)
  have hx1 : x / 2 ^ p = 1 := by omega
  simp [hx1]

theorem land_pred_eq_zero_iff {m : Nat} (hm : 0 < m) :
    m &&& (m - 1) = 0 ↔ ∃ k, m = 2 ^ k := by
  constructor
  · intro h
    refine ⟨pyBitLength m - 1, ?_⟩
    obtain ⟨hlo, hhi⟩ := pyBitLength_bounds hm
    have hp1 : pyBitLength m = (pyBitLength m - 1) + 1 := by
      have := pyBitLength_pos hm
      omega
    rw [hp1] at hhi
    by_contra hne
    have hgt : 2 ^ (pyBitLength m - 1) < m := lt_of_le_of_ne hlo (Ne.symm hne)
    have ht1 : m.testBit (pyBitLength m - 1) = true := testBit_top hlo hhi
    have ht2 : (m - 1).testBit (pyBitLength m - 1) = true :=
      testBit_top (by omega) (by omega)
    have hbit := congrArg (fun z => z.testBit (pyBitLength m - 1)) h
    simp only [Nat.testBit_land, Nat.zero_testBit, ht1, ht2, Bool.and_self] at hbit
    exact Bool.noConfusion hbit
  · rintro ⟨k, rfl⟩
    apply Nat.eq_of_testBit_eq
    intro i
    simp only [Nat.testBit_land, Nat.zero_testBit, Nat.testBit_two_pow,
      Nat.testBit_two_pow_sub_one]
    by_cases h : k = i
    · subst h
      simp
    · simp [h]

theorem toNat_two_pow (e : Nat) : ((2 : Int) ^ e).toNat = 2 ^ e := by
  rw [show (2 : Int) ^ e = ((2 ^ e : Nat) : Int) by push_cast; ring,
    Int.toNat_natCast]

theorem is_power_of_two_iff (n : Int) :
    is_power_of_two n = true ↔ ∃ k : Nat, n = 2 ^ k := by
  rw [is_power_of_two]
  by_cases h : n ≤ 0
  · rw [if_pos h]
    simp only [Bool.false_eq_true, false_iff]
    rintro ⟨k, rfl⟩
    have : (0 : Int) < 2 ^ k := by positivity
    omega
  · rw [if_neg h]
    push_neg at h
    rw [beq_iff_eq, land_pred_eq_zero_iff (by omega : 0 < n.toNat)]
    constructor
    · rintro ⟨k, hk⟩
      refine ⟨k, ?_⟩
      have h2 : ((n.toNat : Nat) : Int) = ((2 ^ k : Nat) : Int) := by
        exact_mod_cast congrArg (fun z : Nat => (z : Int)) hk
      rw [Int.toNat_of_nonneg (le_of_lt h)] at h2
      rw [h2]
      push_cast
      ring
    · rintro ⟨k, rfl⟩
      exact ⟨k, toNat_two_pow k⟩

theorem pyBitLength_two_pow (k : Nat) : pyBitLength (2 ^ k) = k + 1 := by
  induction k with
  | zero =>
    rw [pow_zero, pyBitLength_of_pos (by norm_num)]
    norm_num [pyBitLength_zero]
  | succ k ih =>
    rw [pyBitLength_of_pos (by positivity)]
    have hdiv : 2 ^ (k + 1) / 2 = 2 ^ k := by
      rw [pow_succ]
      exact Nat.mul_div_cancel _ (by norm_num)
    rw [hdiv, ih]

theorem is_fermat_of_eq (n : Int) (k : Nat) (hk : n = 2 ^ (2 ^ k) + 1) :
    is_fermat n = (true, (k : Int)) := by
  have he1 : (1 : Nat) ≤ 2 ^ k := Nat.one_le_two_pow
  have hval : (2 : Int) ≤ (2 : Int) ^ (2 ^ k) := by
    calc (2 : Int) = 2 ^ 1 := by norm_num
      _ ≤ 2 ^ (2 ^ k) := pow_le_pow_right (by norm_num) he1
  subst hk
  simp only [is_fermat]
  rw [if_neg (by omega)]
  have hm : (2 : Int) ^ 2 ^ k + 1 - 1 = (2 : Int) ^ 2 ^ k := by ring
  rw [hm]
  rw [if_neg (by
    rw [not_not]
    exact (is_power_of_two_iff _).mpr ⟨2 ^ k, rfl⟩)]
  rw [toNat_two_pow, pyBitLength_two_pow, Nat.add_sub_cancel]
  rw [if_neg (by omega)]
  rw [if_pos (by
    apply (is_power_of_two_iff _).mpr
    exact ⟨k, by push_cast; ring⟩)]
  rw [pyBitLength_two_pow, Nat.add_sub_cancel]

theorem is_fermat_found (n : Int) (h : (is_fermat n).1 = true) :
    ∃ k : Nat, n = 2 ^ (2 ^ k) + 1 := by
  simp only [is_fermat] at h
  by_cases h1 : n ≤ 1
  · rw [if_pos h1] at h
    simp at h
  · rw [if_neg h1] at h
    by_cases h2 : is_power_of_two (n - 1) = true
    · rw [if_neg (not_not_intro h2)] at h
      obtain ⟨j, hj⟩ := (is_power_of_two_iff _).mp h2
      rw [hj, toNat_two_pow, pyBitLength_two_pow, Nat.add_sub_cancel] at h
      by_cases h3 : j = 0
      · rw [if_pos h3] at h
        simp at h
      · rw [if_neg h3] at h
        by_cases h4 : is_power_of_two (j : Int) = true
        · obtain ⟨k, hk⟩ := (is_power_of_two_iff _).mp h4
          have hjk : j = 2 ^ k := by exact_mod_cast hk
          refine ⟨k, ?_⟩
          rw [hjk] at hj
          omega
        · rw [if_neg h4] at h
          by_cases h5 : n = 3
          · exact ⟨0, by rw [h5]; norm_num⟩
          · rw [if_neg h5] at h
            simp at h
    · rw [if_pos h2] at h
      simp at h

/-- C8: `is_fermat n` reports found with exponent `k` exactly when
`n = 2^(2^k) + 1`, reports not-found for every `n <= 1`, and the `k = 0`
case is handled correctly: `is_fermat 3 = (true, 0)`. -/
theorem C8_is_fermat_spec (n : Int) :
    ((is_fermat n).1 = true ↔ ∃ k : Nat, n = 2 ^ (2 ^ k) + 1) ∧
    (∀ k : Nat, n = 2 ^ (2 ^ k) + 1 → is_fermat n = (true, (k : Int))) ∧
    (n ≤ 1 → is_fermat n = (false, -1)) ∧
    is_fermat 3 = (true, 0) := by
  refine ⟨⟨is_fermat_found n, ?_⟩, fun k hk => is_fermat_of_eq n k hk, ?_, ?_⟩
  · rintro ⟨k, hk⟩
    rw [is_fermat_of_eq n k hk]
  · intro h
    rw [is_fermat, if_pos h]
  · have h3 := is_fermat_of_eq 3 0 (by norm_num)
    simpa using h3

/-! ## Witnesses -/

theorem C1_binary_convolution_spec_witness :
    ∃ c : List Nat, binary_convolution 3 5 = .ok c ∧
      c.length = pyBitLength (3 : Int).toNat + pyBitLength (5 : Int).toNat - 1 ∧
      (∀ k < c.length, c.getD k 0
        = ∑ i in Finset.range (k + 1),
            (if (3 : Int).toNat.testBit i then 1 else 0) *
              (if (5 : Int).toNat.testBit (k - i) then 1 else 0)) ∧
      c.sum = popcountN (3 : Int).toNat * popcountN (5 : Int).toNat :=
  C1_binary_convolution_spec 3 5 (by norm_num) (by norm_num)

theorem C2_H_bounds_witness :
    ∃ h : Nat, H 3 5 = .ok h ∧ 1 ≤ h ∧
      h ≤ min (popcountN (3 : Int).toNat) (popcountN (5 : Int).toNat) :=
  C2_H_bounds 3 5 (by norm_num) (by norm_num)

theorem C3_single_sweep_normalization_witness :
    ((seqSweep (convolve (bitsOf (7 : Int).toNat) (bitsOf (7 : Int).toNat)) 0).all
        (· ≤ 1)) = true ∧
    L_loop (convolve (bitsOf (7 : Int).toNat) (bitsOf (7 : Int).toNat)) 0 = 1 ∧
    L 7 7 = .ok 1 :=
  C3_single_sweep_normalization 7 7 (by norm_num) (by norm_num) 3
    (by
      rw [H_pos (by norm_num) (by norm_num)]
      have h7 : bitsOf (7 : Int).toNat = [1, 1, 1] := by simp [bitsOf]
      rw [h7]
      decide)
    (by norm_num)

theorem C4_is_bct_perfect_spec_witness :
    (is_bct_perfect 15 = .ok true ↔
      ∀ a b : Nat, 1 < a → a ≤ b → b < (15 : Int).toNat →
        a * b = (15 : Int).toNat → H (a : Int) (b : Int) = .ok 1) ∧
    is_bct_perfect 15 = .ok true ∧
    is_bct_perfect 21 = .ok false ∧
    is_bct_perfect 51 = .ok true :=
  C4_is_bct_perfect_spec 15 (by norm_num)

theorem C5_mersenne_law_witness :
    binary_convolution ((2 : Int) ^ 2 - 1) ((2 : Int) ^ 2 - 1)
      = .ok ((List.range (2 * 2 - 1)).map fun j => min (j + 1) (2 * 2 - 1 - j)) ∧
    H ((2 : Int) ^ 2 - 1) ((2 : Int) ^ 2 - 1) = .ok 2 ∧
    C ((2 : Int) ^ 2 - 1) ((2 : Int) ^ 2 - 1) = .ok ((2 - 1) ^ 2) :=
  C5_mersenne_law 2 (by norm_num)

theorem C7_domain_errors_witness :
    binary_convolution (-1) 5 = .error .ValueError ∧
    is_bct_perfect 0 = .error .ValueError ∧
    sigma 0 = .error .ValueError :=
  ⟨(C7_domain_errors (-1) 5 0).2.1 (by norm_num),
   (C7_domain_errors (-1) 5 0).2.2.2.1 (by norm_num),
   (C7_domain_errors (-1) 5 0).2.2.2.2.2 (by norm_num)⟩

theorem C8_is_fermat_spec_witness : is_fermat 5 = (true, 1) :=
  (C8_is_fermat_spec 5).2.1 1 (by norm_num)

theorem C9_L_returns_one_witness : L 7 6 = .ok 1 :=
  C9_L_returns_one 7 6 (by norm_num) (by norm_num)
